import Mathlib

/-!
Verification of the milli search engine core against its specification.

This file shallowly embeds the parts of the repository that the
specification's claims are about:

* the query-time word-derivation engine of src/milli/src/search/mod.rs
  (the function word_derivations together with get_first, the derivation
  cache, and the fst intersection with Levenshtein and starts-with
  automata);
* the ranked-retrieval paging loop Search::perform_sort;
* the sort-criteria validation and the distinct-field dispatch of
  Search::execute;
* the progress events of IndexDocuments::execute_raw and
  IndexDocuments::execute_prefix_databases, and the prefix delta-set
  computation of execute_prefix_databases.

The external Levenshtein-DFA library (the levenshtein_automata crate) is
out of scope of the repository and is modelled semantically: a DFA built
for a word at distance d accepts exactly the strings whose edit distance
to the word is at most d, and reports that distance; the prefix-mode DFA
accepts the strings with a prefix at distance at most d and reports the
minimal such distance.  An fst set is modelled as its (sorted) list of
keys, each key a valid UTF-8 string, so the Utf8Error branch of the code
cannot fire in the model; the Rust panic in get_first is modelled by
Option, with none standing for the panic.
-/

namespace Milli

/-! ### Levenshtein distance, computed by dynamic programming -/

/-- Continues one row of the edit-distance table: given the current word
character x, the remaining key characters, the tail of the previous row
starting at the diagonal cell, and the cell just computed to the left,
produces the remaining cells of the current row. -/
def rowGo (x : Char) : List Char → List Nat → Nat → List Nat
  | y :: ys, diag :: up :: rest, left =>
    let cur := min (up + 1) (min (left + 1) (diag + (if x = y then 0 else 1)))
    cur :: rowGo x ys (up :: rest) cur
  | _, _, _ => []

/-- Computes the next row of the edit-distance table from the previous one. -/
def levRow (x : Char) (ys : List Char) (prev : List Nat) : List Nat :=
  match prev with
  | p0 :: _ => (p0 + 1) :: rowGo x ys prev (p0 + 1)
  | [] => []

/-- Computes the final row of the edit-distance table between xs and ys:
entry j of the result is the edit distance between xs and the first j
characters of ys. -/
def levFinalRow (xs ys : List Char) : List Nat :=
  xs.foldl (fun row x => levRow x ys row) (List.range (ys.length + 1))

/-- Levenshtein edit distance between two character lists. -/
def levenshteinList (xs ys : List Char) : Nat :=
  (levFinalRow xs ys).getLastD 0

/-- Minimal edit distance between xs and any leading fragment of ys; this
is the distance reported by a prefix-mode Levenshtein DFA. -/
def prefixLevList (xs ys : List Char) : Nat :=
  (levFinalRow xs ys).foldr min ((levFinalRow xs ys).getLastD 0)

/-- Distance that the Levenshtein DFA built for word w (prefix-mode when
pm is true) reports for an accepted key k. -/
def dfaReportedDistance (w : String) (pm : Bool) (k : String) : Nat :=
  if pm then prefixLevList w.data k.data else levenshteinList w.data k.data

/-- Acceptance of key k by the Levenshtein DFA built for word w at
distance d, prefix-mode when pm is true. -/
def dfaAccepts (w : String) (d : Nat) (pm : Bool) (k : String) : Bool :=
  decide (dfaReportedDistance w pm k ≤ d)

/-! ### The word-derivation engine (word_derivations, get_first) -/

/-- Embedding of get_first of src/milli/src/search/mod.rs: the first
character of the string; the Rust code panics with "unexpected empty
query" on the empty string, modelled here by none. -/
def getFirst (s : String) : Option Char :=
  match s.data with
  | [] => none
  | c :: _ => some c

/-- Acceptance of the StartsWith(Str(first-grapheme)) automaton: the key
starts with the character c.  On valid UTF-8 this byte-prefix test is
equivalent to the first-character test. -/
def startsWithChar (k : String) (c : Char) : Bool :=
  match k.data with
  | [] => false
  | c2 :: _ => c2 == c

/-- Acceptance of the Str(w).starts_with() automaton used in the
max_typo = 0 prefix branch: w is a prefix of k. -/
def strStarts (k w : String) : Bool :=
  w.data.isPrefixOf k.data

/-- Acceptance of the union automaton of the max_typo = 2 branch:
(distance-1 DFA and not starts-with-first-grapheme) or (distance-2 DFA
and starts-with-first-grapheme), translated from lines 326-330 of
src/milli/src/search/mod.rs. -/
def twoTypoKeep (w : String) (pm : Bool) (c : Char) (k : String) : Bool :=
  (dfaAccepts w 1 pm k && !(startsWithChar k c)) ||
    (dfaAccepts w 2 pm k && startsWithChar k c)

/-- Loop body of the max_typo = 2 stream of word_derivations: for each
found key, if its first character differs from the query's first
character the reported distance is 2, otherwise it is the distance-2 DFA
distance; an empty found key makes get_first panic (none). -/
def collectTwo (w : String) (pm : Bool) (c : Char) :
    List String → Option (List (String × Nat))
  | [] => some []
  | k :: ks =>
    match getFirst k with
    | none => none
    | some ck =>
      let entry := if ck ≠ c then (k, 2) else (k, dfaReportedDistance w pm k)
      match collectTwo w pm c ks with
      | none => none
      | some rest => some (entry :: rest)

/-- Value produced by the max_typo = 2 loop for a non-empty key k. -/
def twoEntry (w : String) (pm : Bool) (c : Char) (k : String) : String × Nat :=
  if getFirst k ≠ some c then (k, 2) else (k, dfaReportedDistance w pm k)

/-- Embedding of the cache-miss path of word_derivations of
src/milli/src/search/mod.rs (lines 290-352).  The fst is its list of
keys; none models the "unexpected empty query" panic. -/
def wordDerivations (w : String) (pm : Bool) (maxTypo : Nat) (fst : List String) :
    Option (List (String × Nat)) :=
  match maxTypo with
  | 0 =>
    if pm then
      some ((fst.filter (fun k => strStarts k w)).map (fun k => (k, 0)))
    else if fst.contains w then
      some [(w, 0)]
    else
      some []
  | 1 =>
    match getFirst w with
    | none => none
    | some c =>
      some ((fst.filter (fun k => startsWithChar k c && dfaAccepts w 1 pm k)).map
        (fun k => (k, dfaReportedDistance w pm k)))
  | _ + 2 =>
    match getFirst w with
    | none => none
    | some c => collectTwo w pm c (fst.filter (twoTypoKeep w pm c))

/-- Embedding of WordDerivationsCache: the query-scoped cache keyed by
(word, is-prefix flag, max typo). -/
abbrev WordDerivationsCache := List ((String × Bool × Nat) × List (String × Nat))

/-- Embedding of the full word_derivations entry point: a cache hit
returns the stored list without touching the fst, a miss computes the
derivations and stores them. -/
def wordDerivationsCached (w : String) (pm : Bool) (maxTypo : Nat) (fst : List String)
    (cache : WordDerivationsCache) :
    Option (List (String × Nat) × WordDerivationsCache) :=
  match cache.lookup (w, pm, maxTypo) with
  | some v => some (v, cache)
  | none =>
    match wordDerivations w pm maxTypo fst with
    | some d => some (d, ((w, pm, maxTypo), d) :: cache)
    | none => none

/-! ### Helper lemmas about the word-derivation engine -/

theorem getFirst_isSome_of_ne (s : String) (h : s ≠ "") : ∃ c, getFirst s = some c := by
  cases s with
  | mk data =>
    cases data with
    | nil => exact absurd (by decide) h
    | cons c cs => exact ⟨c, rfl⟩

theorem startsWithChar_getFirst (k : String) (c : Char)
    (h : startsWithChar k c = true) : getFirst k = some c := by
  cases k with
  | mk data =>
    cases data with
    | nil => simp [startsWithChar] at h
    | cons c2 cs =>
      simp only [startsWithChar, beq_iff_eq] at h
      simp [getFirst, h]

theorem startsWithChar_eq_false (k : String) (c : Char)
    (h : getFirst k ≠ some c) : startsWithChar k c = false := by
  cases k with
  | mk data =>
    cases data with
    | nil => rfl
    | cons c2 cs =>
      simp only [getFirst, ne_eq, Option.some.injEq] at h
      simp [startsWithChar, h]

theorem twoEntry_fst (w : String) (pm : Bool) (c : Char) (k : String) :
    (twoEntry w pm c k).1 = k := by
  unfold twoEntry
  split <;> rfl

theorem collectTwo_eq_map (w : String) (pm : Bool) (c : Char) (ks : List String)
    (h : ∀ k ∈ ks, k ≠ "") :
    collectTwo w pm c ks = some (ks.map (twoEntry w pm c)) := by
  induction ks with
  | nil => rfl
  | cons k ks ih =>
    obtain ⟨ck, hck⟩ := getFirst_isSome_of_ne k (h k (by simp))
    have hrest := ih (fun x hx => h x (by simp [hx]))
    simp only [collectTwo, hck, hrest, List.map_cons, Option.some.injEq]
    have hhead : (if ck ≠ c then (k, 2) else (k, dfaReportedDistance w pm k))
        = twoEntry w pm c k := by
      by_cases hc : ck = c <;> simp [twoEntry, hck, hc]
    rw [hhead]

theorem collectTwo_some_eq (w : String) (pm : Bool) (c : Char) (ks : List String)
    (L : List (String × Nat)) (h : collectTwo w pm c ks = some L) :
    L = ks.map (twoEntry w pm c) := by
  induction ks generalizing L with
  | nil =>
    simp only [collectTwo, Option.some.injEq] at h
    simp [h.symm]
  | cons k ks ih =>
    cases hck : getFirst k with
    | none => simp [collectTwo, hck] at h
    | some ck =>
      cases hrest : collectTwo w pm c ks with
      | none => simp [collectTwo, hck, hrest] at h
      | some rest =>
        simp only [collectTwo, hck, hrest, Option.some.injEq] at h
        have hr := ih rest hrest
        subst hr
        have hhead : (if ck ≠ c then (k, 2) else (k, dfaReportedDistance w pm k))
            = twoEntry w pm c k := by
          by_cases hc : ck = c <;> simp [twoEntry, hck, hc]
        rw [← h, List.map_cons, hhead]

/-! ### Claims C1, C2, C8, C10 -/

/-- C1: for every non-empty word w, derive(w, is_prefix, 1, fst) returns
exactly the fst keys accepted by the distance-1 Levenshtein DFA whose
first character equals the first character of w, each with its
DFA-reported distance; hence no derivation with a typo on the leading
character is returned, and derive("sealand", false, 1, set of "zealand")
is empty. -/
theorem derive_one_typo_first_letter (w : String) (c : Char) (pm : Bool)
    (fst : List String) (hw : getFirst w = some c) :
    (∃ L, wordDerivations w pm 1 fst = some L
      ∧ (∀ k d, (k, d) ∈ L ↔
          k ∈ fst ∧ startsWithChar k c = true ∧ dfaAccepts w 1 pm k = true
            ∧ d = dfaReportedDistance w pm k)
      ∧ (∀ k d, (k, d) ∈ L → getFirst k = some c))
    ∧ wordDerivations "sealand" false 1 ["zealand"] = some [] := by
  constructor
  · refine ⟨(fst.filter (fun k => startsWithChar k c && dfaAccepts w 1 pm k)).map
        (fun k => (k, dfaReportedDistance w pm k)), ?_, ?_, ?_⟩
    · simp [wordDerivations, hw]
    · intro k d
      simp only [List.mem_map, List.mem_filter, Bool.and_eq_true]
      constructor
      · rintro ⟨a, ⟨ha, hs, hd⟩, heq⟩
        cases heq
        exact ⟨ha, hs, hd, rfl⟩
      · rintro ⟨hk, hs, hd, rfl⟩
        exact ⟨k, ⟨hk, hs, hd⟩, rfl⟩
    · intro k d hk
      simp only [List.mem_map, List.mem_filter, Bool.and_eq_true] at hk
      obtain ⟨a, ⟨ha, hs, hd⟩, heq⟩ := hk
      have hak : a = k := congrArg Prod.fst heq
      exact hak ▸ startsWithChar_getFirst a c hs
  · decide

/-- Witness for C1 at the concrete input of the specification. -/
theorem derive_one_typo_first_letter_witness :
    wordDerivations "sealand" false 1 ["zealand"] = some [] :=
  (derive_one_typo_first_letter "sealand" 's' false ["zealand"] (by decide)).2

/-- C2: whenever derive(w, is_prefix, 2, fst) returns a list, that list
holds exactly the fst keys accepted by the union automaton; a key whose
first character differs from w's first character is reported with
distance 2 and is within edit distance 1 of w, any other key is reported
with the distance-2 DFA distance; and derive("sealand", false, 2, set of
"zealand") is exactly ("zealand", 2). -/
theorem derive_two_typos (w : String) (c : Char) (pm : Bool) (fst : List String)
    (L : List (String × Nat)) (hw : getFirst w = some c)
    (hL : wordDerivations w pm 2 fst = some L) :
    (∀ k d, (k, d) ∈ L ↔
        k ∈ fst ∧ twoTypoKeep w pm c k = true ∧ d = (twoEntry w pm c k).2)
    ∧ (∀ k d, (k, d) ∈ L → getFirst k ≠ some c →
        d = 2 ∧ dfaAccepts w 1 pm k = true)
    ∧ (∀ k d, (k, d) ∈ L → getFirst k = some c →
        d = dfaReportedDistance w pm k)
    ∧ wordDerivations "sealand" false 2 ["zealand"] = some [("zealand", 2)] := by
  simp only [wordDerivations, hw] at hL
  have hmap := collectTwo_some_eq w pm c _ L hL
  subst hmap
  have hmem : ∀ k d, (k, d) ∈ (fst.filter (twoTypoKeep w pm c)).map (twoEntry w pm c) ↔
      k ∈ fst ∧ twoTypoKeep w pm c k = true ∧ d = (twoEntry w pm c k).2 := by
    intro k d
    simp only [List.mem_map, List.mem_filter]
    constructor
    · rintro ⟨a, ⟨ha, hkeep⟩, heq⟩
      have ha1 : a = k := by
        have := twoEntry_fst w pm c a
        rw [heq] at this
        exact this.symm
      subst ha1
      have hd : d = (twoEntry w pm c a).2 := by rw [heq]
      exact ⟨ha, hkeep, hd⟩
    · rintro ⟨hk, hkeep, rfl⟩
      exact ⟨k, ⟨hk, hkeep⟩, Prod.ext (twoEntry_fst w pm c k) rfl⟩
  refine ⟨hmem, ?_, ?_, by decide⟩
  · intro k d hkd hne
    obtain ⟨hk, hkeep, hd⟩ := (hmem k d).mp hkd
    have hsw : startsWithChar k c = false := startsWithChar_eq_false k c hne
    constructor
    · rw [hd]
      simp [twoEntry, hne]
    · simp only [twoTypoKeep, hsw, Bool.not_false, Bool.and_true, Bool.and_false,
        Bool.or_false] at hkeep
      exact hkeep
  · intro k d hkd hfirst
    obtain ⟨hk, hkeep, hd⟩ := (hmem k d).mp hkd
    rw [hd]
    simp [twoEntry, hfirst]

/-- Witness for C2 at the concrete input of the specification. -/
theorem derive_two_typos_witness :
    wordDerivations "sealand" false 2 ["zealand"] = some [("zealand", 2)] :=
  (derive_two_typos "sealand" 's' false ["zealand"] [("zealand", 2)]
    (by decide) (by decide)).2.2.2

/-- C8 counterexample: a non-empty one-character word, max_typo = 2 and
an fst containing the empty key drive word_derivations into the
"unexpected empty query" panic (none), refuting the claim that with a
non-empty word the panic is unreachable. -/
theorem derive_panic_counterexample :
    "a" ≠ "" ∧ wordDerivations "a" false 2 [""] = none := by decide

/-- C8 amended: for a non-empty word, and provided every fst key is
non-empty, word_derivations never reaches the panic; with an empty word
and max_typo at least 1 on a cache miss the panic branch of get_first is
reached. -/
theorem derive_panic_free (w : String) (pm : Bool) (t : Nat) (fst : List String) :
    (w ≠ "" → (∀ k ∈ fst, k ≠ "") → (wordDerivations w pm t fst).isSome = true)
    ∧ (1 ≤ t → wordDerivations "" pm t fst = none) := by
  have hnone : getFirst "" = none := by decide
  constructor
  · intro hw hkeys
    match t with
    | 0 =>
      simp only [wordDerivations]
      split
      · simp
      · split <;> simp
    | 1 =>
      obtain ⟨c, hc⟩ := getFirst_isSome_of_ne w hw
      simp [wordDerivations, hc]
    | n + 2 =>
      obtain ⟨c, hc⟩ := getFirst_isSome_of_ne w hw
      simp only [wordDerivations, hc]
      rw [collectTwo_eq_map w pm c _
        (fun k hk => hkeys k (List.mem_filter.mp hk).1)]
      simp
  · intro ht
    match t with
    | 1 => simp [wordDerivations, hnone]
    | n + 2 => simp [wordDerivations, hnone]

/-- Witness for C8 amended at concrete inputs. -/
theorem derive_panic_free_witness :
    (wordDerivations "zealand" false 2 ["zealand", "sealand"]).isSome = true
    ∧ wordDerivations "" false 1 ["zealand"] = none := by
  constructor
  · exact (derive_panic_free "zealand" false 2 ["zealand", "sealand"]).1
      (by decide) (by decide)
  · exact (derive_panic_free "" false 1 ["zealand"]).2 (by decide)

/-- C10: the derivation cache is keyed only by (word, prefix flag, max
typo); on a hit the stored list is returned unchanged whatever fst is
passed, so two calls with the same cache and key but different fsts
return identical results. -/
theorem cache_ignores_fst (w : String) (pm : Bool) (t : Nat)
    (fst₁ fst₂ : List String) (cache : WordDerivationsCache)
    (v : List (String × Nat)) (h : cache.lookup (w, pm, t) = some v) :
    wordDerivationsCached w pm t fst₁ cache = some (v, cache)
    ∧ wordDerivationsCached w pm t fst₂ cache
        = wordDerivationsCached w pm t fst₁ cache := by
  unfold wordDerivationsCached
  rw [h]
  exact ⟨rfl, rfl⟩

/-- Witness for C10 at a concrete cache. -/
theorem cache_ignores_fst_witness :
    wordDerivationsCached "word" true 1 ["aaa"]
        [(("word", true, 1), [("word", 0)])]
      = some ([("word", 0)], [(("word", true, 1), [("word", 0)])]) :=
  (cache_ignores_fst "word" true 1 ["aaa"] ["bbb"] _ _ (by decide)).1

/-! ### The ranked-retrieval paging loop (Search::perform_sort) -/

/-- Embedding of the while-let loop of Search::perform_sort
(src/milli/src/search/mod.rs lines 220-243).  Each element of the bucket
list is the sequence of document ids that the distinct iterator yields
for one criteria bucket, in rank order (the criteria pipeline and the
distinct implementations live outside the sampled sources and are
abstracted by these per-bucket sequences).  The loop skips up to the
remaining offset, decrements the offset by the number actually
discarded, appends ids until the limit is reached, and stops as soon as
the accumulated result reaches the limit or the buckets are exhausted. -/
def sortLoop (limit : Nat) : List (List Nat) → Nat → List Nat → List Nat
  | [], _, acc => acc
  | b :: bs, offset, acc =>
    if (acc ++ (b.drop offset).take (limit - acc.length)).length = limit then
      acc ++ (b.drop offset).take (limit - acc.length)
    else
      sortLoop limit bs (offset - b.length)
        (acc ++ (b.drop offset).take (limit - acc.length))

/-- Embedding of Search::perform_sort restricted to the document ids it
returns: the loop starts with the configured offset and an empty result. -/
def performSort (offset limit : Nat) (buckets : List (List Nat)) : List Nat :=
  sortLoop limit buckets offset []

theorem sortLoop_eq (limit : Nat) (bs : List (List Nat)) :
    ∀ (offset : Nat) (acc : List Nat), acc.length ≤ limit →
      sortLoop limit bs offset acc
        = acc ++ (bs.flatten.drop offset).take (limit - acc.length) := by
  induction bs with
  | nil =>
    intro offset acc h
    simp [sortLoop]
  | cons b bs ih =>
    intro offset acc h
    simp only [sortLoop, List.flatten_cons]
    rcases Nat.le_total (limit - acc.length) ((b.drop offset).length) with hcase | hcase
    · have htl : ((b.drop offset).take (limit - acc.length)).length
          = limit - acc.length := (List.length_take _ _).trans (min_eq_left hcase)
      have hfull : (acc ++ (b.drop offset).take (limit - acc.length)).length = limit := by
        rw [List.length_append, htl]
        omega
      rw [if_pos hfull, List.drop_append_eq_append_drop, List.take_append_eq_append_take]
      have h0 : limit - acc.length - (b.drop offset).length = 0 := by omega
      rw [h0, List.take_zero, List.append_nil]
    · have htake : (b.drop offset).take (limit - acc.length) = b.drop offset :=
        List.take_of_length_le hcase
      rw [htake]
      by_cases hfull : (acc ++ b.drop offset).length = limit
      · rw [if_pos hfull, List.drop_append_eq_append_drop,
          List.take_append_eq_append_take]
        rw [List.length_append] at hfull
        have hL : limit - acc.length = (b.drop offset).length := by omega
        rw [hL, List.take_length, Nat.sub_self, List.take_zero, List.append_nil]
      · rw [if_neg hfull]
        have hacc2 : (acc ++ b.drop offset).length ≤ limit := by
          rw [List.length_append]
          rw [List.length_append] at hfull
          omega
        have harith : limit - (acc ++ b.drop offset).length
            = limit - acc.length - (b.drop offset).length := by
          rw [List.length_append]
          omega
        rw [ih (offset - b.length) _ hacc2, List.drop_append_eq_append_drop,
          List.take_append_eq_append_take, List.append_assoc, htake, harith]

/-- C3: the retrieval loop returns at most limit document ids, namely
the ids ranked offset through min(offset+limit, N)-1 in criteria order
after distinct filtering, that is, the result equals taking limit
elements of the distinct-filtered bucket concatenation after dropping
the first offset. -/
theorem perform_sort_paging (k m : Nat) (buckets : List (List Nat)) :
    performSort k m buckets = (buckets.flatten.drop k).take m
    ∧ (performSort k m buckets).length ≤ m := by
  have h := sortLoop_eq m buckets k [] (by simp)
  constructor
  · rw [performSort, h]
    simp
  · rw [performSort, h]
    simp [List.length_take_le m (buckets.flatten.drop k)]

/-! ### Sort-criteria validation and distinct-field dispatch (Search::execute) -/

/-- Embedding of the sort member: a field name or the geo point (the geo
coordinates play no role in the checks and are omitted). -/
inductive Member where
  | field (name : String)
  | geo
deriving DecidableEq

/-- Embedding of AscDesc, a sort direction applied to a member. -/
inductive AscDesc where
  | asc (m : Member)
  | desc (m : Member)
deriving DecidableEq

/-- Embedding of AscDesc::member. -/
def AscDesc.member : AscDesc → Member
  | .asc m => m
  | .desc m => m

/-- Embedding of the ranking Criterion enum (Attribute shortened to attr
because of a keyword clash). -/
inductive Criterion where
  | words
  | typo
  | proximity
  | attr
  | sort
  | exactness
  | asc (field : String)
  | desc (field : String)
deriving DecidableEq

/-- Embedding of the user errors the sort checks can surface. -/
inductive UserError where
  | invalidSortableAttribute (field : String) (validFields : List String)
  | sortRankingRuleMissing
deriving DecidableEq

deriving instance DecidableEq for Except

/-- Modelled from the spec: the helper is_faceted used by the
sortable-fields validation lives outside the sampled sources; the spec
says sort members must be in sortable_fields, modelled as membership. -/
def isFaceted (field : String) (sortableFields : List String) : Bool :=
  sortableFields.contains field

/-- Embedding of the sortable-fields validation loop of Search::execute
(src/milli/src/search/mod.rs lines 157-176). -/
def checkSortMembers (sortableFields : List String) :
    List AscDesc → Except UserError Unit
  | [] => Except.ok ()
  | ad :: rest =>
    match ad.member with
    | Member.field f =>
      if !(isFaceted f sortableFields) then
        Except.error (UserError.invalidSortableAttribute f sortableFields)
      else
        checkSortMembers sortableFields rest
    | Member.geo =>
      if !(sortableFields.contains "_geo") then
        Except.error (UserError.invalidSortableAttribute "_geo" sortableFields)
      else
        checkSortMembers sortableFields rest

/-- Validation of all sort members when a sort_criteria is present. -/
def sortMembersOk (sortCriteria : Option (List AscDesc))
    (sortableFields : List String) : Except UserError Unit :=
  match sortCriteria with
  | some scs => checkSortMembers sortableFields scs
  | none => Except.ok ()

/-- Embedding of the sort checks of Search::execute: the sortable-fields
validation (lines 157-176) followed by the sort-ranking-rule check
(lines 178-184); the boolean combination mirrors
sort_ranking_rule_missing and empty_sort_criteria of the source. -/
def sortChecks (sortCriteria : Option (List AscDesc)) (sortableFields : List String)
    (criteria : List Criterion) : Except UserError Unit :=
  match sortMembersOk sortCriteria sortableFields with
  | Except.error e => Except.error e
  | Except.ok _ =>
    if !(decide (Criterion.sort ∈ criteria))
        && !(match sortCriteria with
             | none => true
             | some s => s.isEmpty) then
      Except.error UserError.sortRankingRuleMissing
    else
      Except.ok ()

/-- C4 counterexample: with a non-empty sort_criteria whose member fails
the sortable-attribute validation and with Sort absent from the
criteria, the checks fail with InvalidSortableAttribute rather than
SortRankingRuleMissing, refuting the claimed if-and-only-if. -/
theorem sort_checks_counterexample :
    sortChecks (some [AscDesc.asc Member.geo]) [] [Criterion.words]
      = Except.error (UserError.invalidSortableAttribute "_geo" [])
    ∧ sortChecks (some [AscDesc.asc Member.geo]) [] [Criterion.words]
      ≠ Except.error UserError.sortRankingRuleMissing
    ∧ (some [AscDesc.asc Member.geo] ≠ (none : Option (List AscDesc)))
    ∧ [AscDesc.asc Member.geo] ≠ ([] : List AscDesc)
    ∧ Criterion.sort ∉ [Criterion.words] := by
  refine ⟨by decide, by decide, by decide, by decide, by decide⟩

/-- C4 amended: provided every sort member passes the sortable-attribute
validation, Search::execute's checks fail with SortRankingRuleMissing
exactly when sort_criteria is present and non-empty while the Sort
criterion is absent from the configured criteria; and with sort_criteria
absent or empty the absence of the Sort criterion causes no error. -/
theorem sort_checks_iff (sortCriteria : Option (List AscDesc))
    (sortableFields : List String) (criteria : List Criterion)
    (hvalid : sortMembersOk sortCriteria sortableFields = Except.ok ()) :
    (sortChecks sortCriteria sortableFields criteria
        = Except.error UserError.sortRankingRuleMissing
      ↔ (∃ l, sortCriteria = some l ∧ l ≠ []) ∧ Criterion.sort ∉ criteria)
    ∧ (∀ cr : List Criterion, sortChecks none sortableFields cr = Except.ok ()
        ∧ sortChecks (some []) sortableFields cr = Except.ok ()) := by
  constructor
  · rcases sortCriteria with _ | scs
    · simp [sortChecks, sortMembersOk]
    · simp only [sortMembersOk] at hvalid
      rcases scs with _ | ⟨a, rest⟩
      · simp [sortChecks, sortMembersOk, hvalid]
      · by_cases hs : Criterion.sort ∈ criteria
        · simp [sortChecks, sortMembersOk, hvalid, hs]
        · simp [sortChecks, sortMembersOk, hvalid, hs]
  · intro cr
    exact ⟨by simp [sortChecks, sortMembersOk],
      by simp [sortChecks, sortMembersOk, checkSortMembers]⟩

/-- Witness for C4 amended: a valid non-empty sort_criteria with Sort
absent from the criteria produces exactly SortRankingRuleMissing. -/
theorem sort_checks_iff_witness :
    sortChecks (some [AscDesc.asc (Member.field "price")]) ["price"] [Criterion.words]
      = Except.error UserError.sortRankingRuleMissing :=
  (sort_checks_iff (some [AscDesc.asc (Member.field "price")]) ["price"]
      [Criterion.words] (by decide)).1.mpr
    ⟨⟨[AscDesc.asc (Member.field "price")], rfl, by decide⟩, by decide⟩

/-- Embedding of SearchResult; MatchingWords is abstracted as the list
of matching words and the candidates bitmap as a list of document ids. -/
structure SearchResult where
  matchingWords : List String
  candidates : List Nat
  documentsIds : List Nat
deriving DecidableEq

/-- Value of SearchResult::default(): everything empty. -/
def SearchResult.default : SearchResult :=
  { matchingWords := [], candidates := [], documentsIds := [] }

/-- Embedding of the distinct-field dispatch at the end of
Search::execute (src/milli/src/search/mod.rs lines 194-206): the rest of
the pipeline (criteria and perform_sort, for any query, filter, offset
and limit) is abstracted by performSortWith, which receives the distinct
field id when one applies. -/
def executeDistinctDispatch (distinctField : Option String)
    (fieldsIdsMap : List (String × Nat))
    (performSortWith : Option Nat → SearchResult) : SearchResult :=
  match distinctField with
  | none => performSortWith none
  | some name =>
    match fieldsIdsMap.lookup name with
    | some fid => performSortWith (some fid)
    | none => SearchResult.default

/-- C9: if a distinct field is configured but absent from the fields-id
map, Search::execute returns the default SearchResult (empty matching
words, empty candidates, empty document ids) rather than an error,
whatever the rest of the search pipeline would have produced. -/
theorem distinct_field_missing (name : String) (fieldsIdsMap : List (String × Nat))
    (performSortWith : Option Nat → SearchResult)
    (h : fieldsIdsMap.lookup name = none) :
    executeDistinctDispatch (some name) fieldsIdsMap performSortWith
      = SearchResult.default
    ∧ SearchResult.default.matchingWords = []
    ∧ SearchResult.default.candidates = []
    ∧ SearchResult.default.documentsIds = [] := by
  refine ⟨?_, rfl, rfl, rfl⟩
  simp [executeDistinctDispatch, h]

/-- Witness for C9 at a concrete fields-id map. -/
theorem distinct_field_missing_witness :
    executeDistinctDispatch (some "color") [("name", 0), ("size", 1)]
        (fun _ => { matchingWords := ["x"], candidates := [3], documentsIds := [3] })
      = SearchResult.default :=
  (distinct_field_missing "color" [("name", 0), ("size", 1)] _ (by decide)).1

/-! ### Typo authorization gating (Search::is_typo_authorized) -/

/-- Embedding of Search::is_typo_authorized
(src/milli/src/search/mod.rs lines 110-114): typos are authorized only
if both the per-query flag and the index-wide flag allow it. -/
def isTypoAuthorized (queryAuthorizeTypos indexAuthorizeTypos : Bool) : Bool :=
  queryAuthorizeTypos && indexAuthorizeTypos

/-- Modelled from the spec: the query-tree builder (outside the sampled
sources) grants each word 0 typos for length at most 4, 1 for length at
most 8 and 2 otherwise, gated by the combined authorization flag; when
the flag is false every word gets a budget of 0. -/
def typoBudget (authorized : Bool) (len : Nat) : Nat :=
  if authorized then
    if len ≤ 4 then 0 else if len ≤ 8 then 1 else 2
  else 0

/-- C5: typos are authorized exactly when both the index-wide and the
per-query flags are true; whenever either flag is false the builder is
configured with a zero typo budget, and word derivations at max_typo = 0
never carry a distance greater than 0. -/
theorem typo_gating (queryFlag indexFlag : Bool) (len : Nat) (w : String)
    (pm : Bool) (fst : List String) :
    isTypoAuthorized queryFlag indexFlag = (queryFlag && indexFlag)
    ∧ (queryFlag = false ∨ indexFlag = false →
        isTypoAuthorized queryFlag indexFlag = false
        ∧ typoBudget (isTypoAuthorized queryFlag indexFlag) len = 0
        ∧ ∀ L, wordDerivations w pm
              (typoBudget (isTypoAuthorized queryFlag indexFlag) len) fst = some L →
            ∀ e ∈ L, e.2 = 0) := by
  refine ⟨rfl, ?_⟩
  intro h
  have hfalse : isTypoAuthorized queryFlag indexFlag = false := by
    rcases h with h | h <;> simp [isTypoAuthorized, h]
  refine ⟨hfalse, by simp [hfalse, typoBudget], ?_⟩
  rw [hfalse]
  intro L hL e he
  simp only [typoBudget, if_false, Bool.false_eq_true] at hL
  simp only [wordDerivations] at hL
  rcases hpm : pm with _ | _
  · rw [hpm] at hL
    simp only [if_false, Bool.false_eq_true] at hL
    by_cases hc : fst.contains w = true
    · rw [if_pos hc] at hL
      cases hL
      simp only [List.mem_singleton] at he
      rw [he]
    · rw [if_neg hc] at hL
      cases hL
      simp at he
  · rw [hpm] at hL
    simp only [if_true] at hL
    cases hL
    simp only [List.mem_map] at he
    obtain ⟨a, ha, heq⟩ := he
    rw [← heq]

/-- Witness for C5: with the index flag off, the combined authorization
is off. -/
theorem typo_gating_witness :
    isTypoAuthorized true false = false :=
  ((typo_gating true false 10 "zealand" false ["zealand"]).2 (Or.inr rfl)).1

/-! ### Indexing progress events (IndexDocuments::execute_raw,
execute_prefix_databases) -/

/-- Count of merged postings databases
(src/milli/src/update/index_documents/mod.rs line 36). -/
def MERGED_DATABASE_COUNT : Nat := 7

/-- Count of prefix databases (line 37). -/
def PREFIX_DATABASE_COUNT : Nat := 5

/-- Total posting database count reported to the progress callback
(line 38). -/
def TOTAL_POSTING_DATABASE_COUNT : Nat :=
  MERGED_DATABASE_COUNT + PREFIX_DATABASE_COUNT

/-- Progress events emitted by execute_prefix_databases (lines 390-543):
databases_seen starts at MERGED_DATABASE_COUNT and is incremented before
each of the five emissions (facets, words-prefix fst, word prefix
docids, word prefix pair proximity, word prefix position). -/
def executePrefixDatabasesEvents : List (Nat × Nat) :=
  [(MERGED_DATABASE_COUNT + 1, TOTAL_POSTING_DATABASE_COUNT),
   (MERGED_DATABASE_COUNT + 2, TOTAL_POSTING_DATABASE_COUNT),
   (MERGED_DATABASE_COUNT + 3, TOTAL_POSTING_DATABASE_COUNT),
   (MERGED_DATABASE_COUNT + 4, TOTAL_POSTING_DATABASE_COUNT),
   (MERGED_DATABASE_COUNT + 5, TOTAL_POSTING_DATABASE_COUNT)]

/-- Progress events emitted by execute_raw (lines 316-366) followed by
those of execute_prefix_databases: one initial event with
databases_seen = 0, then one event per merged-database completion
observed on the channel. -/
def executeRawEvents (mergedCompletions : Nat) : List (Nat × Nat) :=
  (0, TOTAL_POSTING_DATABASE_COUNT)
    :: ((List.range mergedCompletions).map
          (fun i => (i + 1, TOTAL_POSTING_DATABASE_COUNT))
        ++ executePrefixDatabasesEvents)

/-- C6: with the seven merged databases each completing once (as the
specification describes the merger), every MergeDataIntoFinalDatabase
progress event carries total_databases = 12, and the databases_seen
values are monotonically non-decreasing from first to last. -/
theorem merge_progress_monotone :
    TOTAL_POSTING_DATABASE_COUNT = 12
    ∧ (∀ e ∈ executeRawEvents MERGED_DATABASE_COUNT, e.2 = 12)
    ∧ List.Pairwise (fun a b => a ≤ b)
        ((executeRawEvents MERGED_DATABASE_COUNT).map Prod.fst) := by
  refine ⟨rfl, by decide, by decide⟩

/-! ### Prefix delta sets (IndexDocuments::execute_prefix_databases) -/

/-- Embedding of fst_stream_into_vec over the intersection of the
previous and current words-prefix fsts (lines 438-440): the keys present
in both. -/
def commonPrefixFstWords (previous current : List String) : List String :=
  previous.filter (fun s => decide (s ∈ current))

/-- Embedding of fst_stream_into_vec over the difference current minus
previous (lines 447-449): the newly added prefixes. -/
def newPrefixFstWords (previous current : List String) : List String :=
  current.filter (fun s => decide (s ∉ previous))

/-- Embedding of fst_stream_into_hashset over the difference previous
minus current (lines 452-454): the deleted prefixes. -/
def delPrefixFstWords (previous current : List String) : List String :=
  previous.filter (fun s => decide (s ∉ current))

/-- Longest leading run of the list whose elements have the given first
character, together with the remainder; this is the step of
linear_group_by_key (line 443). -/
def takeRun (c : Option Char) : List String → List String × List String
  | [] => ([], [])
  | y :: ys =>
    if getFirst y = c then
      ((y :: (takeRun c ys).1), (takeRun c ys).2)
    else
      ([], y :: ys)

/-- Fuel-driven grouping of a list into maximal runs of equal first
character; the fuel is the list length, which bounds the recursion. -/
def groupRunsAux : Nat → List String → List (List String)
  | 0, _ => []
  | _ + 1, [] => []
  | fuel + 1, x :: xs =>
    (x :: (takeRun (getFirst x) xs).1)
      :: groupRunsAux fuel (takeRun (getFirst x) xs).2

/-- Embedding of linear_group_by_key over the first character (lines
441-444): the common prefixes partitioned into runs of equal first
character. -/
def groupRuns (l : List String) : List (List String) :=
  groupRunsAux l.length l

theorem takeRun_append (c : Option Char) (l : List String) :
    (takeRun c l).1 ++ (takeRun c l).2 = l := by
  induction l with
  | nil => rfl
  | cons y ys ih =>
    by_cases hy : getFirst y = c
    · simp [takeRun, hy, ih]
    · simp [takeRun, hy]

theorem takeRun_first (c : Option Char) (l : List String) :
    ∀ y ∈ (takeRun c l).1, getFirst y = c := by
  induction l with
  | nil => intro y hy; simp [takeRun] at hy
  | cons z zs ih =>
    intro y hy
    by_cases hz : getFirst z = c
    · simp only [takeRun, if_pos hz, List.mem_cons] at hy
      rcases hy with rfl | hy
      · exact hz
      · exact ih y hy
    · simp [takeRun, if_neg hz] at hy

theorem takeRun_snd_length (c : Option Char) (l : List String) :
    (takeRun c l).2.length ≤ l.length := by
  induction l with
  | nil => simp [takeRun]
  | cons y ys ih =>
    by_cases hy : getFirst y = c
    · simp only [takeRun, if_pos hy]
      exact ih.trans (Nat.le_succ _)
    · simp [takeRun, if_neg hy]

theorem groupRunsAux_flatten (fuel : Nat) :
    ∀ l : List String, l.length ≤ fuel → (groupRunsAux fuel l).flatten = l := by
  induction fuel with
  | zero =>
    intro l hl
    rw [Nat.le_zero, List.length_eq_zero] at hl
    subst hl
    rfl
  | succ fuel ih =>
    intro l hl
    cases l with
    | nil => rfl
    | cons x xs =>
      simp only [groupRunsAux, List.flatten_cons]
      rw [ih _ ((takeRun_snd_length (getFirst x) xs).trans (by simpa using hl))]
      simp [takeRun_append]

theorem groupRunsAux_first (fuel : Nat) :
    ∀ l : List String, ∀ g ∈ groupRunsAux fuel l, ∀ a ∈ g, ∀ b ∈ g,
      getFirst a = getFirst b := by
  induction fuel with
  | zero => intro l g hg; simp [groupRunsAux] at hg
  | succ fuel ih =>
    intro l g hg
    cases l with
    | nil => simp [groupRunsAux] at hg
    | cons x xs =>
      simp only [groupRunsAux, List.mem_cons] at hg
      rcases hg with rfl | hg
      · intro a ha b hb
        have key : ∀ y ∈ x :: (takeRun (getFirst x) xs).1, getFirst y = getFirst x := by
          intro y hy
          rcases List.mem_cons.mp hy with rfl | hy
          · rfl
          · exact takeRun_first (getFirst x) xs y hy
        rw [key a ha, key b hb]
      · exact ih _ g hg

/-- C7: the prefix-database rebuild computes common as the intersection
of the previous and current prefix fsts, new as current minus previous,
deleted as previous minus current, and partitions the common prefixes
into groups of equal first character whose concatenation restores the
common list. -/
theorem prefix_delta_sets (previous current : List String) :
    (∀ s, s ∈ commonPrefixFstWords previous current ↔ s ∈ previous ∧ s ∈ current)
    ∧ (∀ s, s ∈ newPrefixFstWords previous current ↔ s ∈ current ∧ s ∉ previous)
    ∧ (∀ s, s ∈ delPrefixFstWords previous current ↔ s ∈ previous ∧ s ∉ current)
    ∧ (groupRuns (commonPrefixFstWords previous current)).flatten
        = commonPrefixFstWords previous current
    ∧ (∀ g ∈ groupRuns (commonPrefixFstWords previous current),
        ∀ a ∈ g, ∀ b ∈ g, getFirst a = getFirst b) := by
  refine ⟨?_, ?_, ?_, ?_, ?_⟩
  · intro s
    simp [commonPrefixFstWords, List.mem_filter]
  · intro s
    simp [newPrefixFstWords, List.mem_filter]
  · intro s
    simp [delPrefixFstWords, List.mem_filter]
  · exact groupRunsAux_flatten _ _ (le_refl _)
  · exact groupRunsAux_first _ _

/-- Witness for C7 on concrete prefix fsts. -/
theorem prefix_delta_sets_witness :
    "ab" ∈ commonPrefixFstWords ["ab", "b"] ["ab", "c"] :=
  ((prefix_delta_sets ["ab", "b"] ["ab", "c"]).1 "ab").mpr ⟨by decide, by decide⟩

end Milli
